import Mathlib

set_option autoImplicit false

/-!
Verification of the gocov coverage-data library: a shallow embedding of the
counter-merge logic (`cmerge.go`), the data visitor (`covDataVisitor`), the
coverage diff (`comparator.go`), package-pattern matching and pod collection
(`pods.go`), checked against the repository's specification.

Machine integers (`uint32`) are embedded as `Nat` with explicit reduction
modulo `2^32` wherever Go's conversion semantics truncate; Go slices become
`List Nat`; Go maps become association lists with first-match lookup;
fallible Go functions return `Except String`.
-/

namespace Gocov

/-- `2^32`, the modulus of Go's `uint32` arithmetic. -/
def u32Mod : Nat := 4294967296

/-- `math.MaxUint32`. -/
def maxUint32 : Nat := 4294967295

/-- counterMode from defs.go: the "flavor" of the coverage counters. -/
inductive CounterMode where
  | CtrModeInvalid
  | CtrModeSet
  | CtrModeCount
  | CtrModeAtomic
  | CtrModeRegOnly
  | CtrModeTestMain
deriving DecidableEq, Repr

/-- CounterGranularity from defs.go. -/
inductive CounterGranularity where
  | CtrGranularityInvalid
  | CtrGranularityPerBlock
  | CtrGranularityPerFunc
deriving DecidableEq, Repr

open CounterMode CounterGranularity

/-- saturatingAdd from cmerge.go: `d+s` computed in uint64 (no wraparound is
possible for uint32 inputs), overflow detected by `uint64(uint32(sum)) != sum`,
the saturated sum pinned to `math.MaxUint32`. -/
def saturatingAdd (dst src : Nat) : Nat × Bool :=
  let sum := dst + src
  if sum % u32Mod != sum then (maxUint32, true) else (sum % u32Mod, false)

/-- merger from cmerge.go: counter mode, granularity and the sticky
overflow flag. -/
structure Merger where
  cmode : CounterMode := CtrModeInvalid
  cgran : CounterGranularity := CtrGranularityInvalid
  overflow : Bool := false
deriving DecidableEq, Repr

/-- merger.SaturatingAdd from cmerge.go: records an overflow in the sticky
flag and returns the saturated value. The updated merger is returned in
place of Go's in-place mutation. -/
def Merger.SaturatingAdd (m : Merger) (dst src : Nat) : Nat × Merger :=
  let (result, overflow) := saturatingAdd dst src
  if overflow then (result, { m with overflow := true }) else (result, m)

/-- The non-`set` loop of merger.MergeCounters: element-wise
`dst[i] = m.SaturatingAdd(dst[i], src[i])`, threading the merger state. -/
def mergeAddLoop (m : Merger) : List Nat → List Nat → List Nat × Merger
  | d :: dst, s :: src =>
    let (v, m') := m.SaturatingAdd d s
    let (rest, m'') := mergeAddLoop m' dst src
    (v :: rest, m'')
  | dst, _ => (dst, m)

/-- The `set`-mode loop of merger.MergeCounters:
`if src[i] != 0 { dst[i] = 1 }`. -/
def mergeSetLoop : List Nat → List Nat → List Nat
  | d :: dst, s :: src => (if s != 0 then 1 else d) :: mergeSetLoop dst src
  | dst, _ => dst

/-- merger.MergeCounters from cmerge.go. Go mutates `dst` and the receiver;
here the merged vector, the post-call merger and the returned overflow flag
are returned. A length mismatch is the error case. The sticky overflow flag
is read after the merge and then cleared for the next call. -/
def Merger.MergeCounters (m : Merger) (dst src : List Nat) :
    Except String (List Nat × Merger × Bool) :=
  if src.length != dst.length then
    .error "merging counters: length mismatch"
  else if m.cmode = CtrModeSet then
    .ok (mergeSetLoop dst src, { m with overflow := false }, m.overflow)
  else
    let (dst', m') := mergeAddLoop m dst src
    .ok (dst', { m' with overflow := false }, m'.overflow)

/-- merger.SetModeAndGranularity from cmerge.go. Go returns only an error
and mutates the receiver; here the (possibly updated) merger is returned
alongside the error so that the state on failure is observable. -/
def Merger.SetModeAndGranularity (cm : Merger) (cmode : CounterMode)
    (cgran : CounterGranularity) : Merger × Option String :=
  if cm.cmode ≠ CtrModeInvalid then
    if cm.cmode ≠ cmode then
      (cm, some "counter mode clash while reading meta-data file")
    else if cm.cgran ≠ cgran then
      (cm, some "counter granularity clash while reading meta-data file")
    else
      ({ cm with cmode := cmode, cgran := cgran }, none)
  else
    ({ cm with cmode := cmode, cgran := cgran }, none)

/-- merger.ResetModeAndGranularity from cmerge.go. -/
def Merger.ResetModeAndGranularity (_cm : Merger) : Merger :=
  { cmode := CtrModeInvalid, cgran := CtrGranularityInvalid, overflow := false }

end Gocov

namespace Gocov

open CounterMode CounterGranularity

/-! ### Claims C5, C10, C6, C4: merger semantics -/

/-- C5: saturating addition at the ceiling: for every u32 value `x`,
`saturatingAdd(2^32-1, x)` returns `2^32-1`, and the overflow flag is set
iff `x > 0`. -/
theorem saturatingAdd_max (x : Nat) (hx : x < u32Mod) :
    saturatingAdd maxUint32 x = (maxUint32, decide (x > 0)) := by
  rcases Nat.eq_zero_or_pos x with h | h
  · subst h; decide
  · have hne : (maxUint32 + x) % u32Mod ≠ maxUint32 + x := by
      have hlt := Nat.mod_lt (maxUint32 + x) (show 0 < u32Mod by decide)
      unfold maxUint32 u32Mod at *
      omega
    have hdec : decide (x > 0) = true := by simpa using h
    simp [saturatingAdd, hne, hdec]

/-- C5 witness at `x = 7`. -/
theorem saturatingAdd_max_witness :
    7 < u32Mod ∧ saturatingAdd maxUint32 7 = (maxUint32, true) := by
  refine ⟨by decide, ?_⟩
  have h := saturatingAdd_max 7 (by decide)
  simpa using h

theorem Merger.SaturatingAdd_fst (m : Merger) (d s : Nat) :
    (m.SaturatingAdd d s).1 = (saturatingAdd d s).1 := by
  unfold Merger.SaturatingAdd
  rcases h : saturatingAdd d s with ⟨r, o⟩
  cases o <;> simp

theorem mergeSetLoop_eq_zipWith (dst src : List Nat)
    (h : dst.length = src.length) :
    mergeSetLoop dst src = List.zipWith (fun d s => if s != 0 then 1 else d) dst src := by
  induction dst generalizing src with
  | nil => cases src with
    | nil => rfl
    | cons s src => simp at h
  | cons d dst ih => cases src with
    | nil => simp at h
    | cons s src =>
      simp only [List.length_cons, Nat.succ_inj] at h
      simp only [mergeSetLoop, List.zipWith, ih src h]

theorem mergeAddLoop_fst (m : Merger) (dst src : List Nat)
    (h : dst.length = src.length) :
    (mergeAddLoop m dst src).1 =
      List.zipWith (fun d s => (saturatingAdd d s).1) dst src := by
  induction dst generalizing src m with
  | nil => cases src with
    | nil => rfl
    | cons s src => simp at h
  | cons d dst ih => cases src with
    | nil => simp at h
    | cons s src =>
      simp only [List.length_cons, Nat.succ_inj] at h
      simp only [mergeAddLoop, List.zipWith]
      rcases hsa : m.SaturatingAdd d s with ⟨v, m'⟩
      have hv : v = (saturatingAdd d s).1 := by
        have := Merger.SaturatingAdd_fst m d s
        rw [hsa] at this
        exact this
      simp only [ih m' src h, hv]

/-- C10: mode dispatch of MergeCounters. For equal-length vectors the merge
never fails; the bitwise set-union rule applies exactly when the mode is
`set`, and in every other mode (invalid, count, atomic, regonly, testmain)
each slot is the element-wise saturating sum. -/
theorem MergeCounters_mode_dispatch (m : Merger) (dst src : List Nat)
    (h : dst.length = src.length) :
    (m.MergeCounters dst src).toOption.map Prod.fst =
      some (if m.cmode = CtrModeSet then
              List.zipWith (fun d s => if s != 0 then 1 else d) dst src
            else
              List.zipWith (fun d s => (saturatingAdd d s).1) dst src) := by
  unfold Merger.MergeCounters
  have hlen : (src.length != dst.length) = false := by
    simp [h]
  rw [hlen]
  simp only [Bool.false_eq_true, if_false]
  by_cases hm : m.cmode = CtrModeSet
  · rw [if_pos hm, if_pos hm, mergeSetLoop_eq_zipWith dst src h]
    rfl
  · rw [if_neg hm, if_neg hm]
    rcases hloop : mergeAddLoop m dst src with ⟨dst', m'⟩
    have hfst := mergeAddLoop_fst m dst src h
    rw [hloop] at hfst
    simp only [Except.toOption, Option.map]
    exact congrArg some hfst

/-- C10 witness: count-mode merge of `[1,2]` with `[3,0]` yields `[4,2]`. -/
theorem MergeCounters_mode_dispatch_witness :
    (Merger.MergeCounters ⟨CtrModeCount, CtrGranularityPerBlock, false⟩
        [1, 2] [3, 0]).toOption.map Prod.fst = some [4, 2] := by
  have h := MergeCounters_mode_dispatch
    ⟨CtrModeCount, CtrGranularityPerBlock, false⟩ [1, 2] [3, 0] (by decide)
  rw [h]
  decide

/-- C6 counterexample: in set mode, merging the vector `[5]` with itself
yields `[1]`, not `[5]` — `merge(a, a) = a` fails for counter vectors whose
entries are not already 0/1. -/
theorem MergeCounters_set_idem_counterexample :
    (Merger.MergeCounters ⟨CtrModeSet, CtrGranularityPerBlock, false⟩
        [5] [5]).toOption.map Prod.fst = some [1] ∧
    ¬ ((Merger.MergeCounters ⟨CtrModeSet, CtrGranularityPerBlock, false⟩
        [5] [5]).toOption.map Prod.fst = some [5]) := by
  decide

/-- C6 amended: in set mode, merging is idempotent on 0/1-valued counter
vectors: if every entry of `a` is at most 1, `MergeCounters` with destination
`a` and source `a` leaves the vector equal to `a` (and returns no error). -/
theorem MergeCounters_set_idem (m : Merger) (a : List Nat)
    (hm : m.cmode = CtrModeSet) (ha : ∀ x ∈ a, x ≤ 1) :
    (m.MergeCounters a a).toOption.map Prod.fst = some a := by
  rw [MergeCounters_mode_dispatch m a a rfl, if_pos hm]
  congr 1
  induction a with
  | nil => rfl
  | cons d rest ih =>
    have hd : d ≤ 1 := ha d (List.mem_cons_self d rest)
    have hrest : ∀ x ∈ rest, x ≤ 1 := fun x hx => ha x (List.mem_cons_of_mem d hx)
    simp only [List.zipWith, ih hrest]
    interval_cases d <;> simp

/-- C6 witness: set-mode idempotence at `a = [0, 1, 1]`. -/
theorem MergeCounters_set_idem_witness :
    (Merger.MergeCounters ⟨CtrModeSet, CtrGranularityPerBlock, false⟩
        [0, 1, 1] [0, 1, 1]).toOption.map Prod.fst = some [0, 1, 1] :=
  MergeCounters_set_idem ⟨CtrModeSet, CtrGranularityPerBlock, false⟩
    [0, 1, 1] rfl (by decide)

/-- C4: SetModeAndGranularity fails exactly when the merger already holds a
recorded mode (`cmode ≠ invalid`) and the new mode or granularity differs;
on failure the stored state is unchanged, and once a mode is recorded the
stored `(mode, granularity)` never changes again. -/
theorem SetModeAndGranularity_spec (cm : Merger) (mode : CounterMode)
    (gran : CounterGranularity) :
    ((cm.SetModeAndGranularity mode gran).2.isSome ↔
      (cm.cmode ≠ CtrModeInvalid ∧ (mode ≠ cm.cmode ∨ gran ≠ cm.cgran))) ∧
    ((cm.SetModeAndGranularity mode gran).2.isSome →
      (cm.SetModeAndGranularity mode gran).1 = cm) ∧
    (cm.cmode ≠ CtrModeInvalid →
      (cm.SetModeAndGranularity mode gran).1.cmode = cm.cmode ∧
      (cm.SetModeAndGranularity mode gran).1.cgran = cm.cgran) := by
  by_cases h1 : cm.cmode = CtrModeInvalid
  · simp [Merger.SetModeAndGranularity, h1]
  · by_cases h2 : cm.cmode = mode
    · subst h2
      by_cases h3 : cm.cgran = gran
      · subst h3
        simp [Merger.SetModeAndGranularity, h1]
      · have h3' : gran ≠ cm.cgran := Ne.symm h3
        simp [Merger.SetModeAndGranularity, h1, h3, h3']
    · have h2' : mode ≠ cm.cmode := Ne.symm h2
      simp [Merger.SetModeAndGranularity, h1, h2, h2']

/-- C4 witness: a merger already in count/per-block state rejects a set-mode
meta file and is left unchanged. -/
theorem SetModeAndGranularity_spec_witness :
    (Merger.SetModeAndGranularity ⟨CtrModeCount, CtrGranularityPerBlock, false⟩
        CtrModeSet CtrGranularityPerBlock).1 =
      ⟨CtrModeCount, CtrGranularityPerBlock, false⟩ :=
  (SetModeAndGranularity_spec ⟨CtrModeCount, CtrGranularityPerBlock, false⟩
    CtrModeSet CtrGranularityPerBlock).2.1 (by decide)

/-! ### Claim C2: per-package meta-blob header size -/

/-- covMetaHeaderSize from defs.go, written as the source writes it
(`16 + 4 + 4 + 4 + 4 + 4 + 4 + 4`). -/
def covMetaHeaderSize : Nat := 16 + 4 + 4 + 4 + 4 + 4 + 4 + 4

/-- Byte size of the metaSymbolHeader struct from defs.go, summed field by
field: u32 Length, u32 PkgName, u32 PkgPath, u32 ModulePath, 16-byte
MetaHash, 1 unused byte, 3 padding bytes, u32 NumFiles, u32 NumFuncs. -/
def metaSymbolHeaderSize : Nat := 4 + 4 + 4 + 4 + 16 + 1 + 3 + 4 + 4

/-- The seek target computed by CoverageMetaDataDecoder.ReadFunc in
parser/decodemeta.go for function `fidx`'s offset slot:
`CovMetaHeaderSize + 4*fidx`. -/
def funcOffsetLocation (fidx : Nat) : Nat := covMetaHeaderSize + 4 * fidx

/-- C2 counterexample: the per-package meta-blob header is not 40 bytes;
already at function index 0 ReadFunc seeks to offset 44, not 40. -/
theorem covMetaHeaderSize_counterexample :
    ¬ (metaSymbolHeaderSize = 40 ∧ covMetaHeaderSize = 40 ∧
       funcOffsetLocation 0 = 40 + 4 * 0) := by
  decide

/-- C2 amended: the per-package meta-blob header (u32 length, u32 PkgName,
u32 PkgPath, u32 ModulePath, 16-byte hash, 1 + 3 padding bytes, u32 file
count, u32 function count) has a fixed size of 44 bytes, matching the
source's covMetaHeaderSize constant, and ReadFunc(i) seeks to
`44 + 4*i` to read function i's offset. -/
theorem covMetaHeaderSize_spec :
    metaSymbolHeaderSize = 44 ∧ covMetaHeaderSize = 44 ∧
    ∀ fidx : Nat, funcOffsetLocation fidx = 44 + 4 * fidx := by
  refine ⟨by decide, by decide, fun fidx => ?_⟩
  simp [funcOffsetLocation, covMetaHeaderSize]

/-! ### Visitor embedding (part_001): claims C1 and C3 -/

/-- FuncPayload: a counter record `(pkgIdx, funcIdx, counters)`. The Go
zero value `FuncPayload{}` is the default. -/
structure FuncPayload where
  PkgIdx : Nat := 0
  FuncIdx : Nat := 0
  Counters : List Nat := []
deriving DecidableEq, Repr, Inhabited

/-- First-match lookup in an association list; embeds Go map indexing. -/
def lookupA {K V : Type} [DecidableEq K] : List (K × V) → K → Option V
  | [], _ => none
  | (k, v) :: rest, key => if key = k then some v else lookupA rest key

/-- Map store `m[k] = v`, embedded as a prepend (lookupA takes the first
match, so the new binding shadows any old one). -/
def insertA {K V : Type} [DecidableEq K] (l : List (K × V)) (k : K) (v : V) :
    List (K × V) :=
  (k, v) :: l

/-- The claim-relevant state of covDataVisitor from part_001: the merger,
the per-(pkgIdx, funcIdx) counter accumulator map `mm`, and the package
catalog `pkm` mapping a package index to its declared function count. -/
structure CovDataVisitor where
  cm : Merger
  mm : List ((Nat × Nat) × FuncPayload)
  pkm : List (Nat × Nat)
deriving DecidableEq, Repr

/-- Modelled from the spec: BatchCounterAlloc.AllocateCounters is not under
src/; per spec section 4.10 the batched arena hands out zero-initialized
counter vectors of the requested length. -/
def AllocateCounters (n : Nat) : List Nat := List.replicate n 0

/-- covDataVisitor.VisitFuncCounterData from part_001. A record whose
package index is not in `pkm`, or whose function index exceeds (strictly)
the declared function count, is dropped with no error. Otherwise the
accumulator for the key is grown to the record's length (fresh slots are
zero, the old prefix is copied) and the record is merged into it. -/
def CovDataVisitor.VisitFuncCounterData (d : CovDataVisitor)
    (data : FuncPayload) : Except String CovDataVisitor :=
  match lookupA d.pkm data.PkgIdx with
  | none => .ok d
  | some nf =>
    if data.FuncIdx > nf then .ok d
    else
      let key := (data.PkgIdx, data.FuncIdx)
      let val := (lookupA d.mm key).getD {}
      let val :=
        if val.Counters.length < data.Counters.length then
          { val with Counters := val.Counters ++
              AllocateCounters (data.Counters.length - val.Counters.length) }
        else val
      match d.cm.MergeCounters val.Counters data.Counters with
      | .error e => .error e
      | .ok (merged, cm', _) =>
        .ok { d with cm := cm',
                     mm := insertA d.mm key { val with Counters := merged } }

/-- C1 counterexample: with a catalog declaring one package (index 0) of
exactly 1 function, the record `(pkgIdx = 0, funcIdx = 1, counters = [7])`
has `funcIdx ≥ numFuncs`, i.e. it lies outside the catalog, yet
VisitFuncCounterData does not drop it: the accumulator map changes. -/
theorem VisitFuncCounterData_boundary_counterexample :
    (CovDataVisitor.VisitFuncCounterData
        ⟨⟨CtrModeCount, CtrGranularityPerBlock, false⟩, [], [(0, 1)]⟩
        ⟨0, 1, [7]⟩).toOption.map CovDataVisitor.mm =
      some [((0, 1), ⟨0, 0, [7]⟩)] ∧
    some [((0, 1), (⟨0, 0, [7]⟩ : FuncPayload))] ≠
      some ([] : List ((Nat × Nat) × FuncPayload)) := by
  decide

/-- C1 amended: VisitFuncCounterData leaves the visitor state (accumulator
map included) unchanged and returns no error for every record whose package
index is undeclared or whose function index strictly exceeds the package's
declared function count; a record with `funcIdx = numFuncs` is processed. -/
theorem VisitFuncCounterData_drop (d : CovDataVisitor) (data : FuncPayload)
    (h : lookupA d.pkm data.PkgIdx = none ∨
         ∃ nf, lookupA d.pkm data.PkgIdx = some nf ∧ data.FuncIdx > nf) :
    d.VisitFuncCounterData data = .ok d := by
  unfold CovDataVisitor.VisitFuncCounterData
  rcases h with h | ⟨nf, hnf, hgt⟩
  · rw [h]
  · rw [hnf]
    simp only [if_pos hgt]

/-- C1 witness: a record with funcIdx 2 against a package declaring 1
function is dropped and the state survives untouched. -/
theorem VisitFuncCounterData_drop_witness :
    CovDataVisitor.VisitFuncCounterData
        ⟨⟨CtrModeCount, CtrGranularityPerBlock, false⟩, [], [(0, 1)]⟩
        ⟨0, 2, [7]⟩ =
      .ok ⟨⟨CtrModeCount, CtrGranularityPerBlock, false⟩, [], [(0, 1)]⟩ :=
  VisitFuncCounterData_drop _ _ (Or.inr ⟨1, by decide, by decide⟩)

/-- coverableUnit from defs.go: one source region tracked by one counter. -/
structure CoverableUnit where
  StLine : Nat := 0
  StCol : Nat := 0
  EnLine : Nat := 0
  EnCol : Nat := 0
  NxStmts : Nat := 0
  Parent : Nat := 0
deriving DecidableEq, Repr, Inhabited

/-- FuncDesc: the meta-data of a single function. -/
structure FuncDesc where
  Funcname : String := ""
  Srcfile : String := ""
  Units : List CoverableUnit := []
  Lit : Bool := false
deriving DecidableEq, Repr, Inhabited

/-- FuncUnit from part_000: a unit view carrying the merged count. -/
structure FuncUnit where
  StLine : Nat := 0
  StCol : Nat := 0
  EnLine : Nat := 0
  EnCol : Nat := 0
  NxStmts : Nat := 0
  Parent : Nat := 0
  Count : Nat := 0
deriving DecidableEq, Repr, Inhabited

/-- Func from part_000: the record VisitFunc stores into the model. -/
structure Func where
  Name : String := ""
  SrcFile : String := ""
  Units : List FuncUnit := []
deriving DecidableEq, Repr, Inhabited

/-- The unit-building loop of covDataVisitor.VisitFunc: unit `i` gets count
0 when `counters` is nil, else `counters[i]`. A nil Go slice is embedded as
the empty list (the accumulator's counter slice is only ever allocated with
a positive length), and Go's out-of-range slice panic as `none`. -/
def buildFuncUnits (counters : List Nat) :
    List CoverableUnit → Nat → Option (List FuncUnit)
  | [], _ => some []
  | u :: rest, i =>
    let count? : Option Nat := if counters.isEmpty then some 0 else counters[i]?
    match count?, buildFuncUnits counters rest (i + 1) with
    | some c, some l =>
      some ({ StLine := u.StLine, EnLine := u.EnLine, StCol := u.StCol,
              EnCol := u.EnCol, NxStmts := u.NxStmts, Count := c } :: l)
    | _, _ => none

/-- covDataVisitor.VisitFunc from part_001, restricted to the Func record it
builds and stores (the surrounding CoverageData bookkeeping carries no
claim-relevant state): looks up the accumulator for `(pkgIdx, fnIdx)` and
zips its counters index-wise onto the function's units. -/
def CovDataVisitor.VisitFunc (d : CovDataVisitor) (pkgIdx fnIdx : Nat)
    (fd : FuncDesc) : Option Func :=
  let counters : List Nat :=
    match lookupA d.mm (pkgIdx, fnIdx) with
    | some v => v.Counters
    | none => []
  (buildFuncUnits counters fd.Units 0).map fun units =>
    { Name := fd.Funcname, SrcFile := fd.Srcfile, Units := units }

theorem buildFuncUnits_cons (counters : List Nat) (u : CoverableUnit)
    (rest : List CoverableUnit) (i : Nat) :
    buildFuncUnits counters (u :: rest) i =
      match (if counters.isEmpty then some 0 else counters[i]?),
            buildFuncUnits counters rest (i + 1) with
      | some c, some l =>
        some ({ StLine := u.StLine, EnLine := u.EnLine, StCol := u.StCol,
                EnCol := u.EnCol, NxStmts := u.NxStmts, Count := c } :: l)
      | _, _ => none := rfl

theorem buildFuncUnits_nil_counters (units : List CoverableUnit) (start : Nat) :
    ∃ l, buildFuncUnits [] units start = some l ∧
      l.length = units.length ∧ ∀ u ∈ l, u.Count = 0 := by
  induction units generalizing start with
  | nil => exact ⟨[], rfl, rfl, by simp⟩
  | cons u rest ih =>
    obtain ⟨l, hl, hlen, hcount⟩ := ih (start + 1)
    refine ⟨{ StLine := u.StLine, EnLine := u.EnLine, StCol := u.StCol,
              EnCol := u.EnCol, NxStmts := u.NxStmts, Count := 0 } :: l,
            ?_, by simp [hlen], ?_⟩
    · rw [buildFuncUnits_cons, hl]
      rfl
    · intro x hx
      rcases List.mem_cons.mp hx with h | h
      · subst h; rfl
      · exact hcount x h

theorem buildFuncUnits_bounded (counters : List Nat)
    (units : List CoverableUnit) (start : Nat) (hne : counters ≠ [])
    (h : start + units.length ≤ counters.length) :
    ∃ l, buildFuncUnits counters units start = some l ∧
      l.length = units.length ∧
      ∀ i, i < units.length →
        (l.getD i default).Count = counters.getD (start + i) 0 := by
  induction units generalizing start with
  | nil => exact ⟨[], rfl, rfl, by simp⟩
  | cons u rest ih =>
    have hstart : start < counters.length := by
      simp only [List.length_cons] at h; omega
    obtain ⟨l, hl, hlen, hcount⟩ := ih (start + 1)
      (by simp only [List.length_cons] at h; omega)
    have hemp : counters.isEmpty = false := by
      cases counters with
      | nil => exact absurd rfl hne
      | cons a as => rfl
    have hget : counters[start]? = some (counters.getD start 0) := by
      rw [List.getElem?_eq_getElem hstart]
      rw [List.getD_eq_getElem counters 0 hstart]
    refine ⟨{ StLine := u.StLine, EnLine := u.EnLine, StCol := u.StCol,
              EnCol := u.EnCol, NxStmts := u.NxStmts,
              Count := counters.getD start 0 } :: l,
            ?_, by simp [hlen], ?_⟩
    · rw [buildFuncUnits_cons, hl]
      simp only [hemp, Bool.false_eq_true, if_false, hget]
    · intro i hi
      cases i with
      | zero =>
        simp only [List.getD_cons_zero, Nat.add_zero]
      | succ j =>
        have hj : j < rest.length := by
          simp only [List.length_cons] at hi; omega
        have harith : start + (j + 1) = start + 1 + j := by omega
        rw [List.getD_cons_succ, harith]
        exact hcount j hj

/-- C3: the unit views emitted by VisitFunc: when an accumulator exists for
`(pkgIdx, fnIdx)` and its counter vector covers the function's units, unit
`i` carries the accumulator's counter at index `i`; when no accumulator
exists every unit carries count 0. In both cases one unit view per declared
unit is produced. -/
theorem VisitFunc_counts (d : CovDataVisitor) (pkgIdx fnIdx : Nat)
    (fd : FuncDesc) :
    (∀ v, lookupA d.mm (pkgIdx, fnIdx) = some v →
      fd.Units.length ≤ v.Counters.length →
      ∃ f, d.VisitFunc pkgIdx fnIdx fd = some f ∧
        f.Units.length = fd.Units.length ∧
        ∀ i, i < fd.Units.length →
          (f.Units.getD i default).Count = v.Counters.getD i 0) ∧
    (lookupA d.mm (pkgIdx, fnIdx) = none →
      ∃ f, d.VisitFunc pkgIdx fnIdx fd = some f ∧
        f.Units.length = fd.Units.length ∧
        ∀ u ∈ f.Units, u.Count = 0) := by
  have hred : ∀ v, lookupA d.mm (pkgIdx, fnIdx) = some v →
      d.VisitFunc pkgIdx fnIdx fd =
        (buildFuncUnits v.Counters fd.Units 0).map fun units =>
          { Name := fd.Funcname, SrcFile := fd.Srcfile, Units := units } := by
    intro v hv
    unfold CovDataVisitor.VisitFunc
    rw [hv]
  have hredn : lookupA d.mm (pkgIdx, fnIdx) = none →
      d.VisitFunc pkgIdx fnIdx fd =
        (buildFuncUnits [] fd.Units 0).map fun units =>
          { Name := fd.Funcname, SrcFile := fd.Srcfile, Units := units } := by
    intro hv
    unfold CovDataVisitor.VisitFunc
    rw [hv]
  constructor
  · intro v hv hlen
    rcases hc : v.Counters with _ | ⟨c, cs⟩
    · have hunits : fd.Units = [] := by
        rw [hc] at hlen
        simpa using List.length_eq_zero.mp (Nat.le_zero.mp hlen)
      refine ⟨{ Name := fd.Funcname, SrcFile := fd.Srcfile, Units := [] }, ?_, ?_, ?_⟩
      · rw [hred v hv, hc, hunits]
        rfl
      · simp [hunits]
      · intro i hi
        rw [hunits] at hi
        simp at hi
    · rw [← hc]
      have hne : v.Counters ≠ [] := by rw [hc]; simp
      obtain ⟨l, hl, hllen, hcount⟩ :=
        buildFuncUnits_bounded v.Counters fd.Units 0 hne (by omega)
      refine ⟨{ Name := fd.Funcname, SrcFile := fd.Srcfile, Units := l }, ?_, hllen, ?_⟩
      · rw [hred v hv, hl]
        rfl
      · intro i hi
        simpa using hcount i hi
  · intro hnone
    obtain ⟨l, hl, hllen, hcount⟩ := buildFuncUnits_nil_counters fd.Units 0
    refine ⟨{ Name := fd.Funcname, SrcFile := fd.Srcfile, Units := l }, ?_, hllen, hcount⟩
    rw [hredn hnone, hl]
    rfl

/-! ### Claim C7: DiffLines (comparator.go) -/

/-- funit from comparator.go: the unit-identity key
`(stLine, enLine, stCol, enCol, nxStmts)` — the count is not part of it. -/
structure Funit where
  stline : Nat
  enline : Nat
  stcol : Nat
  encol : Nat
  nstmts : Nat
deriving DecidableEq, Repr

/-- Package from part_000. Go's `Funcs` map becomes an association list. -/
structure Package where
  ID : Nat := 0
  Name : String := ""
  ImportPath : String := ""
  ModulePath : String := ""
  NumFuncs : Nat := 0
  Funcs : List (Nat × Func) := []
deriving DecidableEq, Repr

/-- PodData from part_000. -/
structure PodData where
  gran : CounterGranularity := CtrGranularityInvalid
  mode : CounterMode := CtrModeInvalid
  Packages : List (Nat × Package) := []
deriving DecidableEq, Repr

/-- CoverageData from part_000: pod hash → PodData. -/
structure CoverageData where
  PodData : List (String × PodData) := []
deriving DecidableEq, Repr

/-- The key DiffLines builds for a unit:
`funit{u.StLine, u.EnLine, u.StCol, u.EnCol, u.NxStmts}`. -/
def funitKey (u : FuncUnit) : Funit :=
  ⟨u.StLine, u.EnLine, u.StCol, u.EnCol, u.NxStmts⟩

/-- The triple-nested range loops of DiffLines: every unit of every
function of every package of every pod, in iteration order. -/
def unitsOf (c : CoverageData) : List FuncUnit :=
  c.PodData.flatMap fun p =>
    p.2.Packages.flatMap fun pa =>
      pa.2.Funcs.flatMap fun f => f.2.Units

/-- The second loop of DiffLines: for each unit key of `two` in order, if
it is not in the set, count it and add it. Go's `map[funit]bool` is
embedded as a list queried by membership (assignment = prepend). -/
def diffLoop : List Funit → List Funit → Nat
  | [], _ => 0
  | k :: rest, seen =>
    if k ∈ seen then diffLoop rest seen
    else 1 + diffLoop rest (k :: seen)

/-- DiffLines from comparator.go: seed the set with every unit key of
`one`, then count the keys of `two` not yet present. -/
def DiffLines (one two : CoverageData) : Nat :=
  diffLoop ((unitsOf two).map funitKey) ((unitsOf one).map funitKey)

theorem diffLoop_card (l : List Funit) : ∀ seen : List Funit,
    diffLoop l seen = (l.toFinset \ seen.toFinset).card := by
  induction l with
  | nil => intro seen; simp [diffLoop]
  | cons k rest ih =>
    intro seen
    by_cases hk : k ∈ seen
    · rw [show diffLoop (k :: rest) seen = diffLoop rest seen from if_pos hk,
          ih seen, List.toFinset_cons,
          Finset.insert_sdiff_of_mem _ (List.mem_toFinset.mpr hk)]
    · rw [show diffLoop (k :: rest) seen = 1 + diffLoop rest (k :: seen) from
            if_neg hk,
          ih (k :: seen), List.toFinset_cons, List.toFinset_cons]
      have hkS : k ∉ seen.toFinset := fun h => hk (List.mem_toFinset.mp h)
      rw [Finset.sdiff_insert, Finset.insert_sdiff_of_not_mem _ hkS]
      by_cases hkX : k ∈ rest.toFinset \ seen.toFinset
      · rw [Finset.card_erase_of_mem hkX, Finset.insert_eq_self.mpr hkX]
        have hpos : 0 < (rest.toFinset \ seen.toFinset).card :=
          Finset.card_pos.mpr ⟨k, hkX⟩
        omega
      · rw [Finset.erase_eq_of_not_mem hkX, Finset.card_insert_of_not_mem hkX]
        omega

/-- C7: DiffLines returns the number of distinct unit keys
`(stLine, enLine, stCol, enCol, nxStmts)` — across all pods, packages and
functions — present in `two` but not in `one`: the cardinality of the
set difference of the two key sets. Counts are not part of the key, and
each distinct key is counted once. -/
theorem DiffLines_spec (one two : CoverageData) :
    DiffLines one two =
      (((unitsOf two).map funitKey).toFinset \
       ((unitsOf one).map funitKey).toFinset).card :=
  diffLoop_card _ _

/-! ### Claim C8: MatchSimplePattern (part_000)

MatchSimplePattern compiles the pattern to a Go regexp: QuoteMeta escapes
every literal, a trailing `/\.\.\.` is rewritten to the optional group
`(/\.\.\.)?`, every remaining `\.\.\.` (including the one inside the
optional group) becomes `.*`, and the result is anchored with `^`/`$`.
The construction is embedded at the level of the resulting regex AST: a
pattern splits at each `...` into literal segments joined by `.*`, plus the
optional `(/.*)?` tail. Go's regexp engine is an external library; the AST
is given Go's anchored semantics, in which `.` does not match a newline
(regexp.Compile uses syntax.Perl, which has no DotNL flag, and the source
adds no `(?s)`), so `.*` matches exactly the newline-free strings. -/

/-- The regex fragment MatchSimplePattern's construction can produce:
literals (QuoteMeta output), `.*`, an optional group and concatenation. -/
inductive Rx where
  | lit (s : List Char)
  | anyStar
  | opt (r : Rx)
  | cat (r₁ r₂ : Rx)

/-- Concatenation matching: some split of the input satisfies `f` on the
left and `g` on the right. -/
def acceptsSplit (f g : List Char → Bool) (input : List Char) : Bool :=
  (List.range (input.length + 1)).any fun i =>
    f (input.take i) && g (input.drop i)

/-- Anchored matching of the regex fragment against the whole input. Go's
`.` excludes `'\n'` by default, so `.*` accepts exactly the inputs with no
newline. -/
def Rx.accepts : Rx → List Char → Bool
  | .lit s, input => input == s
  | .anyStar, input => input.all fun c => c != '\n'
  | .opt r, input => input.isEmpty || r.accepts input
  | .cat r₁ r₂, input => acceptsSplit r₁.accepts r₂.accepts input

/-- Leftmost non-overlapping split of a pattern at each `...` wildcard,
the list analogue of `strings.Replace`'s occurrence scan. Always returns
at least one (possibly empty) segment. -/
def splitOnDots : List Char → List (List Char)
  | '.' :: '.' :: '.' :: rest => [] :: splitOnDots rest
  | c :: rest =>
    match splitOnDots rest with
    | seg :: segs => (c :: seg) :: segs
    | [] => [[c]]
  | [] => [[]]

/-- `strings.HasSuffix(re, "/\.\.\.")` on the quoted pattern, which holds
iff the pattern itself ends in `/...`. -/
def endsWithSlashDots (p : List Char) : Bool :=
  match p.reverse with
  | '.' :: '.' :: '.' :: '/' :: _ => true
  | _ => false

/-- Literal segments joined by `.*`: the body of the compiled pattern. -/
def segsToRx : List (List Char) → Rx
  | [] => .lit []
  | [s] => .lit s
  | s :: rest => .cat (.lit s) (.cat .anyStar (segsToRx rest))

/-- MatchSimplePattern from part_000: reject patterns containing the vendor
exclusion codepoint, strip a trailing `/...` (which becomes the optional
`(/.*)?` tail after wildcard replacement), split the rest at each `...`,
and match the anchored result against the import path. -/
def MatchSimplePattern (pattern toMatch : List Char) : Bool :=
  if pattern.contains '\x00' then false
  else
    let hasTail := endsWithSlashDots pattern
    let core := if hasTail then pattern.take (pattern.length - 4) else pattern
    let base := segsToRx (splitOnDots core)
    let re := if hasTail then
        Rx.cat base (Rx.opt (Rx.cat (Rx.lit ['/']) Rx.anyStar))
      else base
    re.accepts toMatch

/-- The substitution semantics of a wildcard pattern given by its literal
segments: the input is the segments in order with arbitrary newline-free
(possibly empty) fillers in the wildcard gaps, anchored at both ends. -/
def InterSem : List (List Char) → List Char → Prop
  | [], s => s = []
  | [a], s => s = a
  | a :: rest, s => ∃ t u, s = a ++ t ++ u ∧
      (t.all fun c => c != '\n') = true ∧ InterSem rest u

theorem acceptsSplit_iff (f g : List Char → Bool) (input : List Char) :
    acceptsSplit f g input = true ↔
      ∃ t u, input = t ++ u ∧ f t = true ∧ g u = true := by
  unfold acceptsSplit
  rw [List.any_eq_true]
  constructor
  · rintro ⟨i, _, hi⟩
    rw [Bool.and_eq_true] at hi
    exact ⟨input.take i, input.drop i, (List.take_append_drop i input).symm,
           hi.1, hi.2⟩
  · rintro ⟨t, u, rfl, ht, hu⟩
    refine ⟨t.length, ?_, ?_⟩
    · rw [List.mem_range, List.length_append]
      omega
    · rw [List.take_left, List.drop_left, Bool.and_eq_true]
      exact ⟨ht, hu⟩

theorem accepts_lit (s input : List Char) :
    (Rx.lit s).accepts input = true ↔ input = s := by
  simp [Rx.accepts]

theorem accepts_opt (r : Rx) (input : List Char) :
    (Rx.opt r).accepts input = true ↔ input = [] ∨ r.accepts input = true := by
  simp [Rx.accepts, List.isEmpty_iff]

theorem segsToRx_spec (segs : List (List Char)) : ∀ s : List Char,
    (segsToRx segs).accepts s = true ↔ InterSem segs s := by
  induction segs with
  | nil =>
    intro s
    rw [show segsToRx [] = .lit [] from rfl, accepts_lit]
    exact Iff.rfl
  | cons a rest ih =>
    intro s
    cases rest with
    | nil =>
      rw [show segsToRx [a] = .lit a from rfl, accepts_lit]
      exact Iff.rfl
    | cons b rs =>
      rw [show segsToRx (a :: b :: rs) =
            .cat (.lit a) (.cat .anyStar (segsToRx (b :: rs))) from rfl]
      rw [show (Rx.cat (.lit a) (.cat .anyStar (segsToRx (b :: rs)))).accepts s =
            acceptsSplit (Rx.lit a).accepts
              (Rx.cat .anyStar (segsToRx (b :: rs))).accepts s from rfl]
      rw [acceptsSplit_iff]
      show _ ↔ ∃ t u, s = a ++ t ++ u ∧
        (t.all fun c => c != '\n') = true ∧ InterSem (b :: rs) u
      constructor
      · rintro ⟨t, u, rfl, ht, hu⟩
        rw [accepts_lit] at ht
        subst ht
        rw [show (Rx.cat .anyStar (segsToRx (b :: rs))).accepts u =
              acceptsSplit Rx.anyStar.accepts (segsToRx (b :: rs)).accepts u
              from rfl, acceptsSplit_iff] at hu
        rcases hu with ⟨t₂, u₂, rfl, hstar, hu₂⟩
        exact ⟨t₂, u₂, (List.append_assoc t t₂ u₂).symm, hstar, (ih u₂).mp hu₂⟩
      · rintro ⟨t, u, rfl, hall, hsem⟩
        refine ⟨a, t ++ u, List.append_assoc a t u, ?_, ?_⟩
        · rw [accepts_lit]
        · rw [show (Rx.cat .anyStar (segsToRx (b :: rs))).accepts (t ++ u) =
                acceptsSplit Rx.anyStar.accepts (segsToRx (b :: rs)).accepts
                  (t ++ u) from rfl, acceptsSplit_iff]
          exact ⟨t, u, rfl, hall, (ih u).mpr hsem⟩

/-- C8 counterexample: a `...` wildcard does not match every substring.
The input `a\nb` is the pattern `a...b`'s two segments with the substring
`"\n"` filling the gap, yet MatchSimplePattern rejects it: Go's `.*`
(default flags, no DotNL) never matches a newline. -/
theorem MatchSimplePattern_newline_counterexample :
    "a\nb".toList = "a".toList ++ "\n".toList ++ "b".toList ∧
    splitOnDots "a...b".toList = ["a".toList, "b".toList] ∧
    MatchSimplePattern "a...b".toList "a\nb".toList = false := by
  decide

/-- C8 amended: package-pattern matching. The pattern `net/...` matches
the import paths `net`, `net/http` and `net/http/pprof`; a pattern without
a trailing `/...` matches exactly the inputs obtained by filling each `...`
gap with an arbitrary newline-free substring (whole-string anchored); and
a pattern with a trailing `/...` treats the tail as optionally empty: it
matches the stripped pattern alone or the stripped pattern followed by `/`
and any newline-free string. -/
theorem MatchSimplePattern_spec :
    (MatchSimplePattern "net/...".toList "net".toList = true ∧
     MatchSimplePattern "net/...".toList "net/http".toList = true ∧
     MatchSimplePattern "net/...".toList "net/http/pprof".toList = true) ∧
    (∀ p s : List Char, p.contains '\x00' = false →
      endsWithSlashDots p = false →
      (MatchSimplePattern p s = true ↔ InterSem (splitOnDots p) s)) ∧
    (∀ p s : List Char, p.contains '\x00' = false →
      endsWithSlashDots p = true →
      (MatchSimplePattern p s = true ↔
        (InterSem (splitOnDots (p.take (p.length - 4))) s ∨
         ∃ pre t, s = pre ++ '/' :: t ∧
           (t.all fun c => c != '\n') = true ∧
           InterSem (splitOnDots (p.take (p.length - 4))) pre))) := by
  refine ⟨⟨by decide, by decide, by decide⟩, ?_, ?_⟩
  · intro p s hv ht
    have hv' : ¬ (p.contains '\x00' = true) := by
      rw [hv]
      decide
    unfold MatchSimplePattern
    rw [if_neg hv', ht]
    simp only [Bool.false_eq_true, if_false]
    exact segsToRx_spec (splitOnDots p) s
  · intro p s hv ht
    have hv' : ¬ (p.contains '\x00' = true) := by
      rw [hv]
      decide
    unfold MatchSimplePattern
    rw [if_neg hv', ht]
    simp only [if_true]
    rw [show (Rx.cat (segsToRx (splitOnDots (p.take (p.length - 4))))
          (Rx.opt (Rx.cat (Rx.lit ['/']) Rx.anyStar))).accepts s =
        acceptsSplit (segsToRx (splitOnDots (p.take (p.length - 4)))).accepts
          (Rx.opt (Rx.cat (Rx.lit ['/']) Rx.anyStar)).accepts s from rfl]
    rw [acceptsSplit_iff]
    constructor
    · rintro ⟨t, u, rfl, hbase, htail⟩
      rw [accepts_opt] at htail
      rcases htail with rfl | htail
      · left
        rw [List.append_nil]
        exact (segsToRx_spec _ t).mp hbase
      · right
        rw [show (Rx.cat (Rx.lit ['/']) Rx.anyStar).accepts u =
              acceptsSplit (Rx.lit ['/']).accepts Rx.anyStar.accepts u
              from rfl, acceptsSplit_iff] at htail
        rcases htail with ⟨u₁, u₂, rfl, hu₁, hstar⟩
        rw [accepts_lit] at hu₁
        subst hu₁
        exact ⟨t, u₂, rfl, hstar, (segsToRx_spec _ t).mp hbase⟩
    · rintro (hs | ⟨pre, t, rfl, hall, hsem⟩)
      · refine ⟨s, [], (List.append_nil s).symm,
          (segsToRx_spec _ s).mpr hs, ?_⟩
        rw [accepts_opt]
        exact Or.inl rfl
      · refine ⟨pre, '/' :: t, rfl, (segsToRx_spec _ pre).mpr hsem, ?_⟩
        rw [accepts_opt]
        right
        rw [show (Rx.cat (Rx.lit ['/']) Rx.anyStar).accepts ('/' :: t) =
              acceptsSplit (Rx.lit ['/']).accepts Rx.anyStar.accepts ('/' :: t)
              from rfl, acceptsSplit_iff]
        exact ⟨['/'], t, rfl, rfl, hall⟩

/-- C8 witness: the non-trailing wildcard rule applied to the pattern
`a...c` and the input `abc`, whose gap filler `b` is newline-free. -/
theorem MatchSimplePattern_spec_witness :
    MatchSimplePattern "a...c".toList "abc".toList = true := by
  refine (MatchSimplePattern_spec.2.1 "a...c".toList "abc".toList
    (by decide) (by decide)).mpr ?_
  show InterSem (splitOnDots "a...c".toList) "abc".toList
  rw [show splitOnDots "a...c".toList = [['a'], ['c']] from by decide]
  exact ⟨['b'], ['c'], by decide, by decide, rfl⟩

/-! ### Claim C9: pod collection (pods.go)

collectPodsImpl matches basenames against the anchored regexps
`^covmeta\.(\S+)$` and `^covcounters\.(\S+)\.(\d+)\.(\d+)+$`. For the
counter pattern, the greedy `(\S+)` capture combined with the digit-only
tail means a basename matches iff its final two dot-components are
non-empty digit runs and everything between the `covcounters.` prefix and
those two components is a non-empty whitespace-free tag (dots allowed);
the regexps are embedded as these decision functions. Go's
`map[string]protoPod` is an association list whose insertion order stands
in for Go's unspecified map iteration order — the final sorts make the
result canonical, and the claim's properties are membership-only. -/

/-- Whitespace per Go regexp's `\s` class: `[\t\n\f\r ]`. -/
def goSpace (c : Char) : Bool :=
  c == ' ' || c == '\t' || c == '\n' || c == '\r' || c == '\x0c'

/-- `strings.HasPrefix` returning the remainder after the prefix. -/
def stripPrefixL : List Char → List Char → Option (List Char)
  | [], rest => some rest
  | _ :: _, [] => none
  | p :: ps, c :: cs => if c = p then stripPrefixL ps cs else none

/-- Split at every occurrence of `sep` (the list analogue of
`strings.Split`); always returns at least one segment. -/
def splitOnChar (sep : Char) : List Char → List (List Char)
  | [] => [[]]
  | c :: rest =>
    if c = sep then [] :: splitOnChar sep rest
    else
      match splitOnChar sep rest with
      | seg :: segs => (c :: seg) :: segs
      | [] => [[c]]

/-- Join segments with `.` (inverse of `splitOnChar '.'`). -/
def intercalateDot : List (List Char) → List Char
  | [] => []
  | [s] => s
  | s :: rest => s ++ '.' :: intercalateDot rest

/-- filepath.Base: strip trailing separators, then take the part after the
last separator; empty path gives `.`, an all-separator path gives `/`. -/
def base (f : List Char) : List Char :=
  if f.isEmpty then ['.']
  else
    let s := (f.reverse.dropWhile (· = '/')).reverse
    if s.isEmpty then ['/']
    else (s.reverse.takeWhile (· ≠ '/')).reverse

/-- The meta-file matcher `^covmeta\.(\S+)$` applied to a basename:
returns the captured tag. -/
def metaTag (b : List Char) : Option (List Char) :=
  match stripPrefixL "covmeta.".toList b with
  | none => none
  | some tag =>
    if !tag.isEmpty && tag.all (fun c => !goSpace c) then some tag else none

/-- The counter-file matcher `^covcounters\.(\S+)\.(\d+)\.(\d+)+$` applied
to a basename: the final two dot-components must be non-empty digit runs
(`(\d+)+` without separators matches exactly one digit run) and the greedy
`(\S+)` captures everything before them. -/
def counterTag (b : List Char) : Option (List Char) :=
  match stripPrefixL "covcounters.".toList b with
  | none => none
  | some rest =>
    match (splitOnChar '.' rest).reverse with
    | d2 :: d1 :: t1 :: ts =>
      let tag := intercalateDot (t1 :: ts).reverse
      if (!d1.isEmpty && d1.all Char.isDigit) &&
         (!d2.isEmpty && d2.all Char.isDigit) &&
         !tag.isEmpty && tag.all (fun c => !goSpace c) then
        some tag
      else none
    | _ => none

/-- protoPod from pods.go. -/
structure ProtoPod where
  mf : List Char := []
  elements : List (List Char) := []
deriving DecidableEq, Repr

/-- pod from pods.go. -/
structure Pod where
  MetaFile : List Char := []
  CounterDataFiles : List (List Char) := []
deriving DecidableEq, Repr

/-- First pass of collectPodsImpl: record `{tag → protoPod{mf: f}}` for
each meta basename, keeping the first file for a recurring tag. New keys
are appended, preserving encounter order. -/
def metaPass (mm : List (List Char × ProtoPod)) :
    List (List Char) → List (List Char × ProtoPod)
  | [] => mm
  | f :: rest =>
    match metaTag (base f) with
    | some tag =>
      match lookupA mm tag with
      | some _ => metaPass mm rest
      | none => metaPass (mm ++ [(tag, { mf := f })]) rest
    | none => metaPass mm rest

/-- In-place update of the binding for `key` (no effect when absent). -/
def updateA {K V : Type} [DecidableEq K] :
    List (K × V) → K → V → List (K × V)
  | [], _, _ => []
  | (k, v) :: rest, key, nv =>
    if key = k then (key, nv) :: rest else (k, v) :: updateA rest key nv

/-- Second pass of collectPodsImpl: append each counter file whose tag has
a recorded meta to that proto-pod's elements; drop orphans. -/
def counterPass (mm : List (List Char × ProtoPod)) :
    List (List Char) → List (List Char × ProtoPod)
  | [] => mm
  | f :: rest =>
    match counterTag (base f) with
    | some tag =>
      match lookupA mm tag with
      | some v =>
        counterPass (updateA mm tag { v with elements := v.elements ++ [f] }) rest
      | none => counterPass mm rest
    | none => counterPass mm rest

/-- Lexicographic (byte-wise) order on paths, Go's `string <`. -/
def lexLt : List Char → List Char → Bool
  | [], [] => false
  | [], _ :: _ => true
  | _ :: _, [] => false
  | a :: as, b :: bs => if a < b then true else if a = b then lexLt as bs else false

/-- collectPodsImpl from pods.go: two passes over the file list, then one
pod per recorded tag with its counter files sorted lexicographically, the
pods themselves sorted by meta path. -/
def collectPodsImpl (files : List (List Char)) : List Pod :=
  let mm := counterPass (metaPass [] files) files
  (mm.map fun e =>
    { MetaFile := e.2.mf,
      CounterDataFiles := e.2.elements.mergeSort (fun a b => !lexLt b a) }
   ).mergeSort fun p q => !lexLt q.MetaFile p.MetaFile

/-- The first meta file in list order carrying `tag`. -/
def firstMetaFor (files : List (List Char)) (tag : List Char) :
    Option (List Char) :=
  files.find? fun f => metaTag (base f) == some tag

/-- The counter files carrying `tag`, in list order. -/
def countersFor (files : List (List Char)) (tag : List Char) :
    List (List Char) :=
  files.filter fun f => counterTag (base f) == some tag

/-- Left-biased choice on options, for stating lookup lemmas. -/
def orO {α : Type} : Option α → Option α → Option α
  | some a, _ => some a
  | none, b => b

/-- The keys of an association list, in order. -/
def keysA {K V : Type} (l : List (K × V)) : List K := l.map Prod.fst

theorem orO_some {α : Type} (a : α) (b : Option α) : orO (some a) b = some a := rfl

theorem orO_none {α : Type} (b : Option α) : orO none b = b := rfl

theorem lookupA_eq_none {K V : Type} [DecidableEq K] (l : List (K × V))
    (k : K) : lookupA l k = none ↔ k ∉ keysA l := by
  induction l with
  | nil => simp [lookupA, keysA]
  | cons e rest ih =>
    rcases e with ⟨k₀, v₀⟩
    by_cases hk : k = k₀
    · subst hk
      simp [lookupA, keysA]
    · simp [lookupA, keysA, hk, ih]

theorem lookupA_append {K V : Type} [DecidableEq K] (l₁ l₂ : List (K × V))
    (k : K) : lookupA (l₁ ++ l₂) k = orO (lookupA l₁ k) (lookupA l₂ k) := by
  induction l₁ with
  | nil => simp [lookupA, orO_none]
  | cons e rest ih =>
    rcases e with ⟨k₀, v₀⟩
    by_cases hk : k = k₀
    · simp [lookupA, hk, orO_some]
    · simp [lookupA, hk, ih]

theorem keysA_updateA {K V : Type} [DecidableEq K] (l : List (K × V))
    (k : K) (nv : V) : keysA (updateA l k nv) = keysA l := by
  induction l with
  | nil => rfl
  | cons e rest ih =>
    rcases e with ⟨k₀, v₀⟩
    by_cases hk : k = k₀
    · subst hk
      simp [updateA, keysA]
    · show keysA (if k = k₀ then (k, nv) :: rest else (k₀, v₀) :: updateA rest k nv) =
        keysA ((k₀, v₀) :: rest)
      rw [if_neg hk]
      show k₀ :: keysA (updateA rest k nv) = k₀ :: keysA rest
      rw [ih]

theorem lookupA_updateA {K V : Type} [DecidableEq K] (l : List (K × V))
    (k : K) (nv : V) (k' : K) :
    lookupA (updateA l k nv) k' =
      if k' = k then (lookupA l k).map fun _ => nv else lookupA l k' := by
  induction l with
  | nil => by_cases hk : k' = k <;> simp [updateA, lookupA, hk]
  | cons e rest ih =>
    rcases e with ⟨k₀, v₀⟩
    by_cases h₁ : k = k₀
    · subst h₁
      by_cases h₂ : k' = k
      · subst h₂
        simp [updateA, lookupA]
      · simp [updateA, lookupA, h₂]
    · by_cases h₂ : k' = k
      · subst h₂
        have hne : ¬ k' = k₀ := h₁
        simp [updateA, lookupA, h₁, hne, ih]
      · by_cases h₃ : k' = k₀
        · subst h₃
          simp [updateA, lookupA, h₁, h₂]
        · simp [updateA, lookupA, h₁, h₂, h₃, ih]

theorem mem_iff_lookupA {K V : Type} [DecidableEq K]
    {l : List (K × V)} (hnd : (keysA l).Nodup) (k : K) (v : V) :
    (k, v) ∈ l ↔ lookupA l k = some v := by
  induction l with
  | nil => simp [lookupA]
  | cons e rest ih =>
    rcases e with ⟨k₀, v₀⟩
    rw [keysA, List.map_cons, List.nodup_cons] at hnd
    by_cases hk : k = k₀
    · subst hk
      have hnotin : (k, v) ∉ rest := by
        intro hmem
        exact hnd.1 (List.mem_map.mpr ⟨(k, v), hmem, rfl⟩)
      simp [lookupA, hnotin]
      constructor
      · rintro rfl
        rfl
      · intro h
        exact h.symm
    · have hne : (k, v) ≠ (k₀, v₀) := by
        intro h
        exact hk (congrArg Prod.fst h)
      simp [lookupA, hk, hne]
      exact ih hnd.2

theorem orO_none_right {α : Type} (a : Option α) : orO a none = a := by
  cases a <;> rfl

theorem firstMetaFor_cons (f : List Char) (rest : List (List Char))
    (tag : List Char) :
    firstMetaFor (f :: rest) tag =
      if metaTag (base f) = some tag then some f
      else firstMetaFor rest tag := by
  unfold firstMetaFor
  rw [List.find?_cons]
  by_cases h : metaTag (base f) = some tag
  · rw [show (metaTag (base f) == some tag) = true from beq_iff_eq.mpr h, if_pos h]
  · rw [show (metaTag (base f) == some tag) = false from
        beq_eq_false_iff_ne.mpr h, if_neg h]

theorem countersFor_cons (f : List Char) (rest : List (List Char))
    (tag : List Char) :
    countersFor (f :: rest) tag =
      if counterTag (base f) = some tag then f :: countersFor rest tag
      else countersFor rest tag := by
  unfold countersFor
  rw [List.filter_cons]
  by_cases h : counterTag (base f) = some tag
  · rw [show (counterTag (base f) == some tag) = true from beq_iff_eq.mpr h,
        if_pos h]
    rfl
  · rw [show (counterTag (base f) == some tag) = false from
        beq_eq_false_iff_ne.mpr h, if_neg h]
    rfl

theorem metaPass_lookup (files : List (List Char)) :
    ∀ (mm : List (List Char × ProtoPod)) (tag : List Char),
    lookupA (metaPass mm files) tag =
      orO (lookupA mm tag)
        ((firstMetaFor files tag).map fun f =>
          ({ mf := f, elements := [] } : ProtoPod)) := by
  induction files with
  | nil =>
    intro mm tag
    show lookupA mm tag = _
    exact (orO_none_right _).symm
  | cons f rest ih =>
    intro mm tag
    rcases hm : metaTag (base f) with _ | t
    · have hstep : metaPass mm (f :: rest) = metaPass mm rest := by
        simp only [metaPass, hm]
      rw [hstep, ih, firstMetaFor_cons,
          if_neg (by rw [hm]; exact fun h => Option.noConfusion h)]
    · rcases hl : lookupA mm t with _ | pp₀
      · have hstep : metaPass mm (f :: rest) =
            metaPass (mm ++ [(t, { mf := f })]) rest := by
          simp only [metaPass, hm, hl]
        rw [hstep, ih, firstMetaFor_cons]
        by_cases htag : tag = t
        · subst htag
          rw [if_pos (by rw [hm]), lookupA_append, hl, orO_none]
          have hsingle : lookupA [(tag, ({ mf := f } : ProtoPod))] tag =
              some { mf := f } := by simp [lookupA]
          rw [hsingle, orO_some]
          rfl
        · rw [if_neg (by rw [hm]
                         exact fun h => htag (Option.some_inj.mp h).symm),
              lookupA_append]
          have hsingle : lookupA [(t, ({ mf := f } : ProtoPod))] tag = none := by
            simp [lookupA, htag]
          rw [hsingle, orO_none_right]
      · have hstep : metaPass mm (f :: rest) = metaPass mm rest := by
          simp only [metaPass, hm, hl]
        rw [hstep, ih, firstMetaFor_cons]
        by_cases htag : tag = t
        · subst htag
          rw [if_pos (by rw [hm]), hl, orO_some, orO_some]
        · rw [if_neg (by rw [hm]
                         exact fun h => htag (Option.some_inj.mp h).symm)]

theorem metaPass_keys_nodup (files : List (List Char)) :
    ∀ mm : List (List Char × ProtoPod),
    (keysA mm).Nodup → (keysA (metaPass mm files)).Nodup := by
  induction files with
  | nil => exact fun mm h => h
  | cons f rest ih =>
    intro mm h
    rcases hm : metaTag (base f) with _ | t
    · rw [show metaPass mm (f :: rest) = metaPass mm rest by
        simp only [metaPass, hm]]
      exact ih mm h
    · rcases hl : lookupA mm t with _ | pp₀
      · rw [show metaPass mm (f :: rest) =
            metaPass (mm ++ [(t, { mf := f })]) rest by
          simp only [metaPass, hm, hl]]
        apply ih
        have ht : t ∉ keysA mm := (lookupA_eq_none mm t).mp hl
        have hkeys : keysA (mm ++ [(t, ({ mf := f } : ProtoPod))]) =
            keysA mm ++ [t] := by
          simp [keysA]
        rw [hkeys, List.nodup_append]
        refine ⟨h, List.nodup_singleton t, ?_⟩
        intro a ha hat
        rw [List.mem_singleton] at hat
        exact ht (hat ▸ ha)
      · rw [show metaPass mm (f :: rest) = metaPass mm rest by
          simp only [metaPass, hm, hl]]
        exact ih mm h

theorem counterPass_keys (files : List (List Char)) :
    ∀ mm : List (List Char × ProtoPod),
    keysA (counterPass mm files) = keysA mm := by
  induction files with
  | nil => exact fun _ => rfl
  | cons f rest ih =>
    intro mm
    rcases hc : counterTag (base f) with _ | t
    · rw [show counterPass mm (f :: rest) = counterPass mm rest by
        simp only [counterPass, hc]]
      exact ih mm
    · rcases hl : lookupA mm t with _ | v
      · rw [show counterPass mm (f :: rest) = counterPass mm rest by
          simp only [counterPass, hc, hl]]
        exact ih mm
      · rw [show counterPass mm (f :: rest) =
            counterPass (updateA mm t { v with elements := v.elements ++ [f] })
              rest by
          simp only [counterPass, hc, hl]]
        rw [ih, keysA_updateA]

theorem counterPass_lookup (files : List (List Char)) :
    ∀ (mm : List (List Char × ProtoPod)) (tag : List Char),
    lookupA (counterPass mm files) tag =
      (lookupA mm tag).map fun pp =>
        { pp with elements := pp.elements ++ countersFor files tag } := by
  induction files with
  | nil =>
    intro mm tag
    show lookupA mm tag = _
    rcases h : lookupA mm tag with _ | pp
    · rfl
    · simp [countersFor]
  | cons f rest ih =>
    intro mm tag
    rcases hc : counterTag (base f) with _ | t
    · rw [show counterPass mm (f :: rest) = counterPass mm rest by
        simp only [counterPass, hc]]
      rw [ih, countersFor_cons,
          if_neg (by rw [hc]; exact fun h => Option.noConfusion h)]
    · rcases hl : lookupA mm t with _ | v
      · rw [show counterPass mm (f :: rest) = counterPass mm rest by
          simp only [counterPass, hc, hl]]
        rw [ih, countersFor_cons]
        by_cases htag : tag = t
        · subst htag
          rw [if_pos (by rw [hc]), hl]
          rfl
        · rw [if_neg (by rw [hc]
                         exact fun h => htag (Option.some_inj.mp h).symm)]
      · rw [show counterPass mm (f :: rest) =
            counterPass (updateA mm t { v with elements := v.elements ++ [f] })
              rest by
          simp only [counterPass, hc, hl]]
        rw [ih, lookupA_updateA, countersFor_cons]
        by_cases htag : tag = t
        · subst htag
          rw [if_pos rfl, if_pos (by rw [hc]), hl]
          simp
        · rw [if_neg htag,
              if_neg (by rw [hc]
                         exact fun h => htag (Option.some_inj.mp h).symm)]

theorem mem_collectPodsImpl (files : List (List Char)) (p : Pod) :
    p ∈ collectPodsImpl files ↔
      ∃ e ∈ counterPass (metaPass [] files) files,
        p = { MetaFile := e.2.mf,
              CounterDataFiles := e.2.elements.mergeSort fun a b => !lexLt b a } := by
  unfold collectPodsImpl
  rw [List.mem_mergeSort, List.mem_map]
  constructor
  · rintro ⟨e, he, rfl⟩
    exact ⟨e, he, rfl⟩
  · rintro ⟨e, he, rfl⟩
    exact ⟨e, he, rfl⟩

theorem mem_collectPods_iff (files : List (List Char)) (p : Pod) :
    p ∈ collectPodsImpl files ↔
      ∃ tag f₀, firstMetaFor files tag = some f₀ ∧
        p = { MetaFile := f₀,
              CounterDataFiles :=
                (countersFor files tag).mergeSort fun a b => !lexLt b a } := by
  have hnodup : (keysA (counterPass (metaPass [] files) files)).Nodup := by
    rw [counterPass_keys]
    exact metaPass_keys_nodup files [] (by simp [keysA])
  have hMM : ∀ tag, lookupA (counterPass (metaPass [] files) files) tag =
      (firstMetaFor files tag).map fun f =>
        ({ mf := f, elements := countersFor files tag } : ProtoPod) := by
    intro tag
    rw [counterPass_lookup, metaPass_lookup,
        show lookupA ([] : List (List Char × ProtoPod)) tag = none from rfl,
        orO_none]
    cases firstMetaFor files tag <;> simp
  rw [mem_collectPodsImpl]
  constructor
  · rintro ⟨⟨t, pp⟩, he, rfl⟩
    have hlook := (mem_iff_lookupA hnodup t pp).mp he
    rw [hMM t] at hlook
    rcases hf : firstMetaFor files t with _ | f₀
    · rw [hf] at hlook
      exact absurd hlook (by simp)
    · rw [hf] at hlook
      have hpp : pp = { mf := f₀, elements := countersFor files t } :=
        (Option.some_inj.mp hlook).symm
      subst hpp
      exact ⟨t, f₀, hf, rfl⟩
  · rintro ⟨tag, f₀, hf, rfl⟩
    refine ⟨(tag, { mf := f₀, elements := countersFor files tag }), ?_, rfl⟩
    apply (mem_iff_lookupA hnodup _ _).mpr
    rw [hMM tag, hf]
    rfl

/-- C9: pod collection. (1) For every tag carried by some meta file, there
is a pod whose meta path is the first such file in list order, whose
counter files are exactly those carrying the tag, and it is the only pod
with that meta tag. (2) Every pod arises this way: its meta path carries a
tag and its counter files are exactly that tag's counter files. (3) A
counter file whose tag has no recorded meta appears in no pod. -/
theorem collectPodsImpl_spec (files : List (List Char)) :
    (∀ tag : List Char, (∃ f ∈ files, metaTag (base f) = some tag) →
      ∃ p ∈ collectPodsImpl files,
        firstMetaFor files tag = some p.MetaFile ∧
        (∀ c, c ∈ p.CounterDataFiles ↔ c ∈ countersFor files tag) ∧
        ∀ q ∈ collectPodsImpl files,
          metaTag (base q.MetaFile) = some tag → q = p) ∧
    (∀ q ∈ collectPodsImpl files, ∃ tagq,
      metaTag (base q.MetaFile) = some tagq ∧
      ∀ c, c ∈ q.CounterDataFiles ↔ c ∈ countersFor files tagq) ∧
    (∀ (f tag : List Char), counterTag (base f) = some tag →
      (∀ g ∈ files, metaTag (base g) ≠ some tag) →
      ∀ p ∈ collectPodsImpl files, f ∉ p.CounterDataFiles) := by
  refine ⟨?_, ?_, ?_⟩
  · rintro tag ⟨f, hf, hft⟩
    have hsome : (firstMetaFor files tag).isSome := by
      rw [show (firstMetaFor files tag).isSome =
          (files.find? fun g => metaTag (base g) == some tag).isSome from rfl,
        List.find?_isSome]
      exact ⟨f, hf, by rw [hft]; exact beq_self_eq_true _⟩
    rcases hx : firstMetaFor files tag with _ | f₀
    · rw [hx] at hsome
      exact absurd hsome (by simp)
    refine ⟨{ MetaFile := f₀,
              CounterDataFiles :=
                (countersFor files tag).mergeSort fun a b => !lexLt b a },
            (mem_collectPods_iff files _).mpr ⟨tag, f₀, hx, rfl⟩, ?_, ?_, ?_⟩
    · rfl
    · intro c
      exact List.mem_mergeSort
    · intro q hq hqt
      rcases (mem_collectPods_iff files q).mp hq with ⟨tag', f₀', hf', rfl⟩
      have hfind : files.find? (fun g => metaTag (base g) == some tag') =
          some f₀' := hf'
      have hpred := List.find?_some hfind
      have h1 : metaTag (base f₀') = some tag' := beq_iff_eq.mp hpred
      have htag' : tag' = tag := by
        have h2 : some tag' = some tag := by rw [← h1]; exact hqt
        exact Option.some_inj.mp h2
      subst htag'
      have hff : f₀' = f₀ := by
        rw [hx] at hf'
        exact (Option.some_inj.mp hf').symm
      subst hff
      rfl
  · intro q hq
    rcases (mem_collectPods_iff files q).mp hq with ⟨tag', f₀', hf', rfl⟩
    have hfind : files.find? (fun g => metaTag (base g) == some tag') =
        some f₀' := hf'
    have hpred := List.find?_some hfind
    refine ⟨tag', beq_iff_eq.mp hpred, ?_⟩
    intro c
    exact List.mem_mergeSort
  · intro f tag hc hnometa p hp hfin
    rcases (mem_collectPods_iff files p).mp hp with ⟨tag', f₀', hf', rfl⟩
    have hfind : files.find? (fun g => metaTag (base g) == some tag') =
        some f₀' := hf'
    have hfin' : f ∈ countersFor files tag' := List.mem_mergeSort.mp hfin
    have hfilter : f ∈ files.filter
        (fun g => counterTag (base g) == some tag') := hfin'
    have hctag : counterTag (base f) = some tag' :=
      beq_iff_eq.mp (List.mem_filter.mp hfilter).2
    have htag : tag' = tag := by
      have h2 : some tag' = some tag := by rw [← hctag]; exact hc
      exact Option.some_inj.mp h2
    subst htag
    have hpred := List.find?_some hfind
    exact hnometa f₀' (List.mem_of_find?_eq_some hfind) (beq_iff_eq.mp hpred)

/-- C9 witness: one meta file `covmeta.abc` and one matching counter file
`covcounters.abc.1.2` collapse to the pod with that meta path and that
counter file. -/
theorem collectPodsImpl_spec_witness :
    ∃ p ∈ collectPodsImpl ["covmeta.abc".toList, "covcounters.abc.1.2".toList],
      firstMetaFor ["covmeta.abc".toList, "covcounters.abc.1.2".toList]
          "abc".toList = some p.MetaFile ∧
      (∀ c, c ∈ p.CounterDataFiles ↔
        c ∈ countersFor ["covmeta.abc".toList, "covcounters.abc.1.2".toList]
              "abc".toList) ∧
      ∀ q ∈ collectPodsImpl ["covmeta.abc".toList, "covcounters.abc.1.2".toList],
        metaTag (base q.MetaFile) = some "abc".toList → q = p :=
  (collectPodsImpl_spec _).1 "abc".toList
    ⟨"covmeta.abc".toList, by decide, by decide⟩

/-- C3 witness: an accumulator `[2, 1]` over a two-unit function yields unit
counts 2 and 1. -/
theorem VisitFunc_counts_witness :
    ∃ f, CovDataVisitor.VisitFunc
        ⟨⟨CtrModeCount, CtrGranularityPerBlock, false⟩,
          [((0, 0), ⟨0, 0, [2, 1]⟩)], [(0, 2)]⟩ 0 0
        ⟨"small", "p.go", [⟨6, 1, 8, 2, 2, 0⟩, ⟨9, 1, 9, 2, 1, 0⟩], false⟩ =
        some f ∧
      f.Units.length = 2 ∧
      ∀ i, i < 2 → (f.Units.getD i default).Count = ([2, 1] : List Nat).getD i 0 := by
  obtain ⟨f, hf, hlen, hcount⟩ :=
    (VisitFunc_counts
      ⟨⟨CtrModeCount, CtrGranularityPerBlock, false⟩,
        [((0, 0), ⟨0, 0, [2, 1]⟩)], [(0, 2)]⟩ 0 0
      ⟨"small", "p.go", [⟨6, 1, 8, 2, 2, 0⟩, ⟨9, 1, 9, 2, 1, 0⟩], false⟩).1
      ⟨0, 0, [2, 1]⟩ (by decide) (by decide)
  exact ⟨f, hf, by simpa using hlen, by simpa using hcount⟩

end Gocov
